import Mathlib

/-!
# Verification of the expense-tracker core (`src/expence_tracker.py`)

A shallow embedding of the in-memory ledger engine:

* `Date`, `Expense` — the record type (`Expense.__init__`); the `datetime`
  value stored in an `Expense` is modelled as a year/month/day triple with
  lexicographic comparison, which is how `datetime` objects compare.
* `parseDate` — the external date-string parser (`datetime.strptime` with
  format `"%Y-%m-%d"`), modelled from the spec's contract for it.
* `ExpenseTracker.addExpense` — `add_expense` (insertion-sort insert).
* `ExpenseTracker.mergeSortByAmount` / `ExpenseTracker.merge` —
  `merge_sort_by_amount` / `merge`.
* `ExpenseTracker.binarySearchByDate` — `binary_search_by_date`, with the
  index accesses made explicit through `pyIdx?` (Python list indexing,
  `none` = `IndexError`).
* `ExpenseTracker.categoryTotals` — the aggregation loop of
  `analyze_expenses`, with the Python `dict` modelled as an association
  list in first-insertion order.

Python's `float` amounts are modelled as integers: the code only compares
and adds amounts, and no claim depends on non-integral values.
-/

/-- A calendar date, the value stored in `Expense.date` after
`datetime.strptime(date, "%Y-%m-%d")`. -/
@[ext] structure Date where
  year : Nat
  month : Nat
  day : Nat
deriving DecidableEq, Repr

/-- `datetime` comparison: lexicographic on (year, month, day). -/
def Date.lt (a b : Date) : Prop :=
  a.year < b.year ∨ (a.year = b.year ∧
    (a.month < b.month ∨ (a.month = b.month ∧ a.day < b.day)))

/-- Non-strict `datetime` comparison: lexicographic on (year, month, day). -/
def Date.le (a b : Date) : Prop :=
  a.year < b.year ∨ (a.year = b.year ∧
    (a.month < b.month ∨ (a.month = b.month ∧ a.day ≤ b.day)))

instance (a b : Date) : Decidable (Date.lt a b) := by
  unfold Date.lt; infer_instance

instance (a b : Date) : Decidable (Date.le a b) := by
  unfold Date.le; infer_instance

theorem Date.le_refl (a : Date) : Date.le a a := by
  unfold Date.le; omega

theorem Date.le_trans {a b c : Date} (h₁ : Date.le a b) (h₂ : Date.le b c) :
    Date.le a c := by
  unfold Date.le at *; omega

theorem Date.not_lt {a b : Date} : ¬ Date.lt a b ↔ Date.le b a := by
  unfold Date.lt Date.le; omega

theorem Date.le_of_lt {a b : Date} (h : Date.lt a b) : Date.le a b := by
  unfold Date.lt Date.le at *; omega

theorem Date.lt_of_le_of_ne {a b : Date} (h : Date.le a b) (hne : a ≠ b) :
    Date.lt a b := by
  rw [Ne, Date.ext_iff] at hne
  unfold Date.le Date.lt at *; omega

theorem Date.lt_of_lt_of_le {a b c : Date} (h₁ : Date.lt a b) (h₂ : Date.le b c) :
    Date.lt a c := by
  unfold Date.lt Date.le at *; omega

theorem Date.lt_of_le_of_lt {a b c : Date} (h₁ : Date.le a b) (h₂ : Date.lt b c) :
    Date.lt a c := by
  unfold Date.lt Date.le at *; omega

theorem Date.lt_irrefl (a : Date) : ¬ Date.lt a a := by
  unfold Date.lt; omega

theorem Date.le_total (a b : Date) : Date.le a b ∨ Date.le b a := by
  unfold Date.le; omega

/-- One transaction record (`Expense`): a parsed date plus the three fields
stored unchanged by `Expense.__init__`. -/
structure Expense where
  date : Date
  amount : Int
  category : String
  description : String
deriving DecidableEq, Repr

/-- `y % 4 == 0 and y % 100 != 0 or y % 400 == 0` — proleptic Gregorian
leap-year rule used by `datetime`. -/
def isLeapYear (y : Nat) : Bool :=
  (y % 4 == 0 && y % 100 != 0) || y % 400 == 0

/-- Number of days in month `m` of year `y` (months 1–12). -/
def daysInMonth (y m : Nat) : Nat :=
  if m = 2 then (if isLeapYear y then 29 else 28)
  else if m = 4 ∨ m = 6 ∨ m = 9 ∨ m = 11 then 30
  else 31

/-- Numeric value of a list of decimal digit characters. -/
def digitsToNat (cs : List Char) : Nat :=
  cs.foldl (fun acc c => acc * 10 + (c.toNat - 48)) 0

/-- `s` consists of exactly ten characters `DDDD-DD-DD` with `D` a decimal
digit: the textual `YYYY-MM-DD` pattern. -/
def matchesDatePattern (s : String) : Bool :=
  match s.toList with
  | [y1, y2, y3, y4, c1, m1, m2, c2, d1, d2] =>
    y1.isDigit && y2.isDigit && y3.isDigit && y4.isDigit && c1 == '-' &&
      m1.isDigit && m2.isDigit && c2 == '-' && d1.isDigit && d2.isDigit
  | _ => false

/-- `(y, m, d)` names an existing proleptic-Gregorian calendar date
(year at least 1, month 1–12, day within the month's length). -/
def validCalendarDate (y m d : Nat) : Prop :=
  1 ≤ y ∧ 1 ≤ m ∧ m ≤ 12 ∧ 1 ≤ d ∧ d ≤ daysInMonth y m

instance (y m d : Nat) : Decidable (validCalendarDate y m d) := by
  unfold validCalendarDate; infer_instance

/-- Modelled from the spec: the external date-string parser
(`datetime.strptime(date, "%Y-%m-%d")`, not part of this repository) — "a
date-string parser accepting the fixed textual pattern `YYYY-MM-DD` and
producing a comparable calendar-date value, with strict rejection of
malformed input (including impossible calendar dates)". `none` models the
`ValueError` raised on invalid input. -/
def parseDate (s : String) : Option Date :=
  match s.toList with
  | [y1, y2, y3, y4, c1, m1, m2, c2, d1, d2] =>
    if y1.isDigit && y2.isDigit && y3.isDigit && y4.isDigit && c1 == '-' &&
        m1.isDigit && m2.isDigit && c2 == '-' && d1.isDigit && d2.isDigit then
      let y := digitsToNat [y1, y2, y3, y4]
      let m := digitsToNat [m1, m2]
      let d := digitsToNat [d1, d2]
      if validCalendarDate y m d then some ⟨y, m, d⟩ else none
    else none
  | _ => none

namespace ExpenseTracker

/-- Result of `add_expense`: either the success message is printed, or the
`ValueError` from date parsing is caught and reported. -/
inductive InsertResult
  | ok
  | invalidDate
deriving DecidableEq, Repr

/-- Failure modes of `binary_search_by_date`: the `ValueError` from
`strptime` (uncaught, handled by the caller) or an `IndexError` from a list
access. -/
inductive SearchError
  | invalidDate
  | indexError
deriving DecidableEq, Repr

/-- The ledger is kept non-decreasing by date
(invariant of `ExpenseTracker.expenses`). -/
def SortedByDate (l : List Expense) : Prop :=
  l.Pairwise (fun a b => Date.le a.date b.date)

instance (l : List Expense) : Decidable (SortedByDate l) := by
  unfold SortedByDate; infer_instance

/-- The `while i > 0 and self.expenses[i-1].date > self.expenses[i].date`
swap loop of `add_expense`, viewed on the reversed sequence: the new
element starts at the head (= last array position) and moves past each
neighbour `y` while `y.date > x.date`. -/
def bubbleRev (x : Expense) : List Expense → List Expense
  | [] => [x]
  | y :: ys => if Date.lt x.date y.date then y :: bubbleRev x ys else x :: y :: ys

/-- Lines 26–31 of `add_expense`: append the new expense, then shift it
left while its date precedes its left neighbour's date. -/
def insertExpense (es : List Expense) (x : Expense) : List Expense :=
  (bubbleRev x es.reverse).reverse

/-- `add_expense(date, amount, category, description)`: construct the
`Expense` (which parses the date and may raise), and only on success append
and shift; the `ValueError` is caught, leaving the list unchanged. -/
def addExpense (es : List Expense) (date : String) (amount : Int)
    (category description : String) : List Expense × InsertResult :=
  match parseDate date with
  | none => (es, InsertResult.invalidDate)
  | some d => (insertExpense es ⟨d, amount, category, description⟩, InsertResult.ok)

/-- The `merge` helper of the merge sort: take from the left run while
`left[i].amount <= right[j].amount`, then extend with the leftovers. -/
def merge : List Expense → List Expense → List Expense
  | [], r => r
  | a :: l, [] => a :: l
  | a :: l, b :: r =>
    if a.amount ≤ b.amount then a :: merge l (b :: r)
    else b :: merge (a :: l) r
termination_by l r => l.length + r.length

/-- `merge_sort_by_amount`: return lists of length ≤ 1 unchanged, else
split at `mid = len // 2`, sort both halves and merge. -/
def mergeSortByAmount (es : List Expense) : List Expense :=
  if es.length ≤ 1 then es
  else
    let mid := es.length / 2
    merge (mergeSortByAmount (es.take mid)) (mergeSortByAmount (es.drop mid))
termination_by es.length
decreasing_by
  · simp only [List.length_take]; omega
  · simp only [List.length_drop]; omega

/-- Python list indexing `es[i]`: negative indices count from the end;
`none` models an `IndexError` (index out of range on both sides). -/
def pyIdx? (es : List Expense) (i : Int) : Option Expense :=
  if 0 ≤ i then es[i.toNat]?
  else if i + es.length < 0 then none
  else es[(i + es.length).toNat]?

/-- The `while i >= 0 and self.expenses[i].date == target` collection loop
of `binary_search_by_date` (scan left from `mid - 1`). -/
def scanLeft (es : List Expense) (t : Date) (i : Int) (acc : List Expense) :
    Option (List Expense) :=
  if 0 ≤ i then
    match pyIdx? es i with
    | none => none
    | some e =>
      if e.date = t then scanLeft es t (i - 1) (acc ++ [e]) else some acc
  else some acc
termination_by (i + 1).toNat
decreasing_by omega

/-- The `while i < len(self.expenses) and self.expenses[i].date == target`
collection loop of `binary_search_by_date` (scan right from `mid + 1`). -/
def scanRight (es : List Expense) (t : Date) (i : Int) (acc : List Expense) :
    Option (List Expense) :=
  if i < (es.length : Int) then
    match pyIdx? es i with
    | none => none
    | some e =>
      if e.date = t then scanRight es t (i + 1) (acc ++ [e]) else some acc
  else some acc
termination_by ((es.length : Int) - i).toNat
decreasing_by omega

/-- The `while left <= right` loop of `binary_search_by_date`: on an exact
hit at `mid = (left + right) // 2` collect the hit, then the left scan,
then the right scan; otherwise halve the interval. Falls off the loop
returning the (empty) `results`. (`mid` is written out at each use; it is
the same pure computation the source binds once per iteration.) -/
def bsearchLoop (es : List Expense) (t : Date) (left right : Int) :
    Option (List Expense) :=
  if left ≤ right then
    match pyIdx? es ((left + right) / 2) with
    | none => none
    | some e =>
      if e.date = t then
        match scanLeft es t ((left + right) / 2 - 1) [e] with
        | none => none
        | some acc => scanRight es t ((left + right) / 2 + 1) acc
      else if Date.lt e.date t then bsearchLoop es t ((left + right) / 2 + 1) right
      else bsearchLoop es t left ((left + right) / 2 - 1)
  else some []
termination_by (right + 1 - left).toNat
decreasing_by all_goals omega

/-- `binary_search_by_date(target_date)`: parse the target (a `ValueError`
propagates to the caller), then run the loop over
`left, right = 0, len(self.expenses) - 1`. -/
def binarySearchByDate (es : List Expense) (targetDate : String) :
    Except SearchError (List Expense) :=
  match parseDate targetDate with
  | none => Except.error SearchError.invalidDate
  | some t =>
    match bsearchLoop es t 0 ((es.length : Int) - 1) with
    | none => Except.error SearchError.indexError
    | some r => Except.ok r

/-- Lookup in the association-list model of a Python `dict`. -/
def dictGet (m : List (String × Int)) (k : String) : Option Int :=
  match m with
  | [] => none
  | (km, vm) :: rest => if km = k then some vm else dictGet rest k

/-- Assignment `m[k] = v` on the association-list model of a Python `dict`:
update in place if the key exists, else append at the end (Python dicts
preserve first-insertion order). -/
def dictSet (m : List (String × Int)) (k : String) (v : Int) :
    List (String × Int) :=
  match m with
  | [] => [(k, v)]
  | (km, vm) :: rest =>
    if km = k then (k, v) :: rest else (km, vm) :: dictSet rest k v

/-- The aggregation loop of `analyze_expenses` (lines 130–132):
`category_totals[c] = category_totals.get(c, 0) + e.amount` over the
expenses in order. -/
def categoryTotals (es : List Expense) : List (String × Int) :=
  es.foldl
    (fun m e =>
      dictSet m e.category ((dictGet m e.category).getD 0 + e.amount))
    []

/-- One insert request: the four arguments of `add_expense`. -/
def InsertOp := String × Int × String × String

/-- The `Expense` an insert request constructs, when its date parses. -/
def recordOfOp (op : InsertOp) : Option Expense :=
  (parseDate op.1).map fun d => ⟨d, op.2.1, op.2.2.1, op.2.2.2⟩

/-- Run a sequence of `add_expense` calls against an initially empty
tracker, keeping the resulting expense list. -/
def runInserts (ops : List InsertOp) : List Expense :=
  ops.foldl (fun es op => (addExpense es op.1 op.2.1 op.2.2.1 op.2.2.2).1) []

/-- The tracker state: `self.expenses`. -/
structure Tracker where
  expenses : List Expense
deriving DecidableEq, Repr

/-- `view_expenses(sort_by_amount)` as a state transformer: the displayed
list is `merge_sort_by_amount(self.expenses.copy())` when sorting is
requested and `self.expenses` otherwise; the method only reads the
state. -/
def viewExpenses (tr : Tracker) (sortFlag : Bool) : List Expense × Tracker :=
  if sortFlag then (mergeSortByAmount tr.expenses, tr) else (tr.expenses, tr)

/-- `merge_sort_by_amount` as a method: it reads `self` only to make the
recursive calls, so as a state transformer it is the pure sort of its
argument with the state passed through. -/
def trackerSortByAmount (tr : Tracker) (input : List Expense) :
    List Expense × Tracker :=
  (mergeSortByAmount input, tr)

/-- Non-decreasing by amount, the postcondition of the merge sort. -/
def SortedByAmount (l : List Expense) : Prop :=
  l.Pairwise (fun a b => a.amount ≤ b.amount)

instance (l : List Expense) : Decidable (SortedByAmount l) := by
  unfold SortedByAmount; infer_instance

/-! ## Generic list helpers -/

theorem takeWhile_append_of_all {α : Type} (p : α → Bool) (l₁ l₂ : List α)
    (h : ∀ a ∈ l₁, p a = true) :
    (l₁ ++ l₂).takeWhile p = l₁ ++ l₂.takeWhile p := by
  induction l₁ with
  | nil => simp
  | cons a l₁ ih =>
    simp only [List.cons_append, List.takeWhile_cons, h a (by simp), if_true,
      List.cons.injEq, true_and]
    exact ih fun a ha => h a (by simp [ha])

theorem dropWhile_append_of_all {α : Type} (p : α → Bool) (l₁ l₂ : List α)
    (h : ∀ a ∈ l₁, p a = true) :
    (l₁ ++ l₂).dropWhile p = l₂.dropWhile p := by
  induction l₁ with
  | nil => simp
  | cons a l₁ ih =>
    simp only [List.cons_append, List.dropWhile_cons, h a (by simp)]
    exact ih fun a ha => h a (by simp [ha])

theorem dropWhile_head_false {α : Type} (p : α → Bool) (l : List α) :
    l.dropWhile p = [] ∨
      ∃ b t, l.dropWhile p = b :: t ∧ p b = false := by
  induction l with
  | nil => exact Or.inl rfl
  | cons a l ih =>
    by_cases h : p a = true
    · simpa [List.dropWhile_cons, h] using ih
    · exact Or.inr ⟨a, l, by simp [List.dropWhile_cons, h], by simpa using h⟩

/-! ## The insertion loop of `add_expense` -/

/-- The swap loop, unrolled: the new element passes exactly the elements of
the maximal suffix (head of the reversed list) whose dates all exceed
its own. -/
theorem bubbleRev_eq (x : Expense) (l : List Expense) :
    bubbleRev x l =
      l.takeWhile (fun y => decide (Date.lt x.date y.date)) ++
        x :: l.dropWhile (fun y => decide (Date.lt x.date y.date)) := by
  induction l with
  | nil => simp [bubbleRev]
  | cons y ys ih =>
    by_cases h : Date.lt x.date y.date
    · simp [bubbleRev, h, List.takeWhile_cons, List.dropWhile_cons, ih]
    · simp [bubbleRev, h, List.takeWhile_cons, List.dropWhile_cons]

/-- The swap loop neither drops nor duplicates: its result is a permutation
of the old list plus the new element. -/
theorem bubbleRev_perm (x : Expense) (l : List Expense) :
    (bubbleRev x l).Perm (x :: l) := by
  rw [bubbleRev_eq]
  refine List.Perm.trans List.perm_middle ?_
  rw [List.takeWhile_append_dropWhile]

theorem insertExpense_perm (es : List Expense) (x : Expense) :
    (insertExpense es x).Perm (x :: es) := by
  unfold insertExpense
  refine (List.reverse_perm _).trans ?_
  exact (bubbleRev_perm x es.reverse).trans (List.Perm.cons x es.reverse_perm)

theorem date_lt_decide (x y : Date) :
    decide (Date.lt x y) = ! decide (Date.le y x) := by
  by_cases h : Date.le y x
  · simp [h, Date.not_lt.mpr h]
  · simp only [h, decide_False, Bool.not_false, decide_eq_true_eq]
    by_contra hlt
    exact h (Date.not_lt.mp hlt)

theorem Date.lt_iff_not_le {a b : Date} : Date.lt a b ↔ ¬ Date.le b a := by
  unfold Date.lt Date.le; omega

/-- On a date-sorted ledger, every element dropped by
`dropWhile (date ≤ x.date)` has a date strictly after `x`'s. -/
theorem mem_dropWhile_date_gt (es : List Expense) (x : Expense)
    (hs : SortedByDate es) :
    ∀ b ∈ es.dropWhile (fun e => decide (Date.le e.date x.date)),
      Date.lt x.date b.date := by
  intro b hb
  have hBpair :
      (es.dropWhile (fun e => decide (Date.le e.date x.date))).Pairwise
        (fun a b => Date.le a.date b.date) :=
    List.Pairwise.sublist (List.dropWhile_sublist _) hs
  rcases dropWhile_head_false (fun e => decide (Date.le e.date x.date)) es with
    h0 | ⟨b₀, t, hbt, hb₀⟩
  · rw [h0] at hb; exact absurd hb (List.not_mem_nil b)
  · rw [hbt] at hb hBpair
    have hb₀x : Date.lt x.date b₀.date :=
      Date.lt_iff_not_le.mpr (by simpa using hb₀)
    rcases List.mem_cons.mp hb with rfl | hb'
    · exact hb₀x
    · have hle : Date.le b₀.date b.date := (List.pairwise_cons.mp hBpair).1 b hb'
      exact Date.lt_of_lt_of_le hb₀x hle

/-- On a date-sorted ledger the swap loop places the new expense exactly
after the last element whose date is ≤ the new date: `add_expense` splits
the list at `takeWhile (date ≤ new date)` and splices the new record in. -/
theorem insertExpense_eq_splice (es : List Expense) (x : Expense)
    (hs : SortedByDate es) :
    insertExpense es x =
      es.takeWhile (fun e => decide (Date.le e.date x.date)) ++
        x :: es.dropWhile (fun e => decide (Date.le e.date x.date)) := by
  set p : Expense → Bool := fun e => decide (Date.le e.date x.date) with hp
  set A := es.takeWhile p with hA
  set B := es.dropWhile p with hB
  have hAB : es = A ++ B := (List.takeWhile_append_dropWhile p es).symm
  have hAp : ∀ a ∈ A, p a = true := fun a ha => List.mem_takeWhile_imp ha
  -- every element of the dropped part fails `p`
  have hBp : ∀ b ∈ B, p b = false := by
    intro b hb
    have hgt := mem_dropWhile_date_gt es x hs b (by rwa [hB] at hb)
    simp only [hp, decide_eq_false_iff_not]
    exact Date.lt_iff_not_le.mp hgt
  -- the loop predicate is the pointwise negation of `p`
  have hq : (fun y : Expense => decide (Date.lt x.date y.date)) =
      fun y => ! p y := by
    funext y; exact date_lt_decide x.date y.date
  have hnotB : ∀ b ∈ B.reverse, (! p b) = true := by
    intro b hb; rw [List.mem_reverse] at hb; simp [hBp b hb]
  unfold insertExpense
  rw [bubbleRev_eq, hq]
  have hrev : es.reverse = B.reverse ++ A.reverse := by
    rw [hAB, List.reverse_append]
  rw [hrev, takeWhile_append_of_all _ _ _ hnotB, dropWhile_append_of_all _ _ _ hnotB]
  have htwA : A.reverse.takeWhile (fun y => ! p y) = [] := by
    cases hArev : A.reverse with
    | nil => rfl
    | cons a t =>
      have ha : a ∈ A := by
        rw [← List.mem_reverse, hArev]; simp
      simp [List.takeWhile_cons, hAp a ha]
  have hdwA : A.reverse.dropWhile (fun y => ! p y) = A.reverse := by
    cases hArev : A.reverse with
    | nil => rfl
    | cons a t =>
      have ha : a ∈ A := by
        rw [← List.mem_reverse, hArev]; simp
      simp [List.dropWhile_cons, hAp a ha]
  rw [htwA, hdwA, List.append_nil, List.reverse_append, List.reverse_cons,
    List.reverse_reverse, List.reverse_reverse, List.append_assoc,
    List.singleton_append]

/-- Inserting into a date-sorted ledger keeps it date-sorted. -/
theorem insertExpense_sorted (es : List Expense) (x : Expense)
    (hs : SortedByDate es) : SortedByDate (insertExpense es x) := by
  rw [insertExpense_eq_splice es x hs]
  set p : Expense → Bool := fun e => decide (Date.le e.date x.date) with hp
  set A := es.takeWhile p with hA
  set B := es.dropWhile p with hB
  have hAB : es = A ++ B := (List.takeWhile_append_dropWhile p es).symm
  have hAp : ∀ a ∈ A, Date.le a.date x.date := by
    intro a ha
    have := List.mem_takeWhile_imp ha
    simpa [hp] using this
  have hBx : ∀ b ∈ B, Date.le x.date b.date := fun b hb =>
    Date.le_of_lt (mem_dropWhile_date_gt es x hs b (by rwa [hB] at hb))
  have hs' := hs
  rw [hAB] at hs'
  unfold SortedByDate at hs' ⊢
  rw [List.pairwise_append] at hs'
  obtain ⟨hApair, hBpair, hcross⟩ := hs'
  rw [List.pairwise_append]
  refine ⟨hApair, List.pairwise_cons.mpr ⟨hBx, hBpair⟩, ?_⟩
  intro a ha b hb
  rcases List.mem_cons.mp hb with rfl | hb'
  · exact hAp a ha
  · exact hcross a ha b hb'

theorem addExpense_sorted (es : List Expense) (s : String) (a : Int)
    (c ds : String) (hs : SortedByDate es) :
    SortedByDate (addExpense es s a c ds).1 := by
  unfold addExpense
  cases parseDate s with
  | none => exact hs
  | some d => exact insertExpense_sorted es _ hs

theorem addExpense_perm (es : List Expense) (op : InsertOp) :
    ((addExpense es op.1 op.2.1 op.2.2.1 op.2.2.2).1).Perm
      ((recordOfOp op).toList ++ es) := by
  unfold addExpense recordOfOp
  cases parseDate op.1 with
  | none => simp
  | some d => simpa using insertExpense_perm es _

/-- The fold underlying `runInserts`, from an arbitrary start state. -/
theorem foldl_addExpense_sorted (ops : List InsertOp) :
    ∀ es : List Expense, SortedByDate es →
      SortedByDate
        (ops.foldl (fun es op => (addExpense es op.1 op.2.1 op.2.2.1 op.2.2.2).1) es) := by
  induction ops with
  | nil => intro es hs; exact hs
  | cons op ops ih =>
    intro es hs
    exact ih _ (addExpense_sorted es op.1 op.2.1 op.2.2.1 op.2.2.2 hs)

theorem foldl_addExpense_perm (ops : List InsertOp) :
    ∀ es : List Expense,
      (ops.foldl (fun es op => (addExpense es op.1 op.2.1 op.2.2.1 op.2.2.2).1) es).Perm
        (es ++ ops.filterMap recordOfOp) := by
  induction ops with
  | nil => intro es; simp
  | cons op ops ih =>
    intro es
    rw [List.foldl_cons]
    refine (ih (addExpense es op.1 op.2.1 op.2.2.1 op.2.2.2).1).trans ?_
    refine (List.Perm.append_right _ (addExpense_perm es op)).trans ?_
    unfold recordOfOp
    cases hop : parseDate op.1 with
    | none => simp [List.filterMap_cons, recordOfOp, hop]
    | some d =>
      simp only [List.filterMap_cons, recordOfOp, hop, Option.map_some,
        Option.toList_some, List.singleton_append, List.cons_append]
      exact List.perm_middle.symm

theorem recordOfOp_isSome (op : InsertOp) :
    (recordOfOp op).isSome = (parseDate op.1).isSome := by
  unfold recordOfOp
  cases parseDate op.1 <;> rfl

theorem length_filterMap_recordOfOp (ops : List InsertOp) :
    (ops.filterMap recordOfOp).length =
      (ops.filter fun op => (parseDate op.1).isSome).length := by
  induction ops with
  | nil => rfl
  | cons op ops ih =>
    rw [List.filterMap_cons, List.filter_cons]
    cases hop : parseDate op.1 with
    | none =>
      have : recordOfOp op = none := by simp [recordOfOp, hop]
      simp [this, hop, ih]
    | some d =>
      have : recordOfOp op = some ⟨d, op.2.1, op.2.2.1, op.2.2.2⟩ := by
        simp [recordOfOp, hop]
      simp [this, hop, ih]

/-- Claim C1: for every sequence of `add_expense` calls against an initially
empty tracker, the resulting ledger is non-decreasing by date, its length is
exactly the number of successful insertions (those whose date parses), and
it is a permutation of the successfully inserted records — nothing is
dropped or duplicated. -/
theorem insert_sequence_invariant (ops : List InsertOp) :
    SortedByDate (runInserts ops) ∧
    (runInserts ops).length =
      (ops.filter fun op => (parseDate op.1).isSome).length ∧
    (runInserts ops).Perm (ops.filterMap recordOfOp) := by
  have hperm := foldl_addExpense_perm ops []
  rw [List.nil_append] at hperm
  exact ⟨foldl_addExpense_sorted ops [] (List.Pairwise.nil),
    hperm.length_eq.trans (length_filterMap_recordOfOp ops), hperm⟩

/-- Claim C4: an `add_expense` call whose date string does not parse leaves
the ledger exactly as it was and reports the invalid-date failure. -/
theorem insert_invalid_date_unchanged (es : List Expense) (s : String)
    (a : Int) (c ds : String) (hbad : parseDate s = none) :
    addExpense es s a c ds = (es, InsertResult.invalidDate) := by
  unfold addExpense
  rw [hbad]

/-- Witness for C4 at a nonexistent calendar date (April 31st). -/
theorem insert_invalid_date_unchanged_witness :
    addExpense [] "2024-04-31" 7 "Food" "lunch" = ([], InsertResult.invalidDate) :=
  insert_invalid_date_unchanged [] "2024-04-31" 7 "Food" "lunch" (by decide)

/-- Claim C5: a successful insert into a date-sorted ledger lands exactly
after the last record whose date is ≤ the new date (the leftward shift
stops at the first neighbour with date ≤ the new date, so a record whose
date already occurs is placed immediately after the last record with that
date). -/
theorem insert_stable_among_equal_dates (es : List Expense) (s : String)
    (d : Date) (a : Int) (c ds : String) (hparse : parseDate s = some d)
    (hs : SortedByDate es) :
    (addExpense es s a c ds).1 =
      es.takeWhile (fun e => decide (Date.le e.date d)) ++
        (⟨d, a, c, ds⟩ : Expense) :: es.dropWhile (fun e => decide (Date.le e.date d)) ∧
    (addExpense es s a c ds).2 = InsertResult.ok := by
  unfold addExpense
  rw [hparse]
  exact ⟨insertExpense_eq_splice es ⟨d, a, c, ds⟩ hs, rfl⟩

/-- Witness for C5: inserting a third record dated 2024-03-05 into the
spec's example ledger places it immediately after the existing 2024-03-05
record. -/
theorem insert_stable_among_equal_dates_witness :
    (addExpense
        [⟨⟨2024, 3, 1⟩, 15, "Travel", "bus"⟩, ⟨⟨2024, 3, 5⟩, 20, "Food", "lunch"⟩]
        "2024-03-05" 5 "Food" "coffee").1 =
      [⟨⟨2024, 3, 1⟩, 15, "Travel", "bus"⟩, ⟨⟨2024, 3, 5⟩, 20, "Food", "lunch"⟩].takeWhile
          (fun e => decide (Date.le e.date ⟨2024, 3, 5⟩)) ++
        (⟨⟨2024, 3, 5⟩, 5, "Food", "coffee"⟩ : Expense) ::
          [⟨⟨2024, 3, 1⟩, 15, "Travel", "bus"⟩, ⟨⟨2024, 3, 5⟩, 20, "Food", "lunch"⟩].dropWhile
            (fun e => decide (Date.le e.date ⟨2024, 3, 5⟩)) ∧
    (addExpense
        [⟨⟨2024, 3, 1⟩, 15, "Travel", "bus"⟩, ⟨⟨2024, 3, 5⟩, 20, "Food", "lunch"⟩]
        "2024-03-05" 5 "Food" "coffee").2 = InsertResult.ok :=
  insert_stable_among_equal_dates
    [⟨⟨2024, 3, 1⟩, 15, "Travel", "bus"⟩, ⟨⟨2024, 3, 5⟩, 20, "Food", "lunch"⟩]
    "2024-03-05" ⟨2024, 3, 5⟩ 5 "Food" "coffee" (by decide) (by decide)

/-! ## The merge sort (`merge_sort_by_amount` / `merge`) -/

/-- `merge` emits every element of both runs exactly once. -/
theorem merge_perm (l : List Expense) :
    ∀ r : List Expense, (merge l r).Perm (l ++ r) := by
  induction l with
  | nil => intro r; simp [merge]
  | cons a l ihl =>
    intro r
    induction r with
    | nil => simp [merge]
    | cons b r ihr =>
      rw [merge]
      by_cases h : a.amount ≤ b.amount
      · simpa [h] using (ihl (b :: r)).cons a
      · simp only [h, if_false]
        exact (ihr.cons b).trans List.perm_middle.symm

/-- Merging two amount-sorted runs gives an amount-sorted run. -/
theorem merge_sorted (l : List Expense) :
    ∀ r : List Expense, SortedByAmount l → SortedByAmount r →
      SortedByAmount (merge l r) := by
  induction l with
  | nil => intro r _ hr; simpa [merge] using hr
  | cons a l ihl =>
    intro r hal hr
    induction r with
    | nil => simpa [merge] using hal
    | cons b r ihr =>
      rw [merge]
      have hal' := List.pairwise_cons.mp hal
      have hbr' := List.pairwise_cons.mp hr
      by_cases h : a.amount ≤ b.amount
      · simp only [h, if_true]
        refine List.pairwise_cons.mpr ⟨?_, ihl (b :: r) hal'.2 hr⟩
        intro x hx
        have hx' : x ∈ l ++ b :: r := (merge_perm l (b :: r)).mem_iff.mp hx
        rcases List.mem_append.mp hx' with hx' | hx'
        · exact hal'.1 x hx'
        · rcases List.mem_cons.mp hx' with rfl | hx'
          · exact h
          · exact le_trans h (hbr'.1 x hx')
      · simp only [h, if_false]
        have hba : b.amount ≤ a.amount := le_of_lt (lt_of_not_le h)
        refine List.pairwise_cons.mpr ⟨?_, ihr hbr'.2⟩
        intro x hx
        have hx' : x ∈ (a :: l) ++ r := (merge_perm (a :: l) r).mem_iff.mp hx
        rcases List.mem_append.mp hx' with hx' | hx'
        · rcases List.mem_cons.mp hx' with rfl | hx'
          · exact hba
          · exact le_trans hba (hal'.1 x hx')
        · exact hbr'.1 x hx'

/-- Stability of `merge`: among elements of one amount, everything taken
from the left run precedes everything taken from the right run (the merge
takes from the left on ties). -/
theorem merge_filter_amount (a : Int) (l : List Expense) :
    ∀ r : List Expense, SortedByAmount l → SortedByAmount r →
      (merge l r).filter (fun e => decide (e.amount = a)) =
        l.filter (fun e => decide (e.amount = a)) ++
          r.filter (fun e => decide (e.amount = a)) := by
  induction l with
  | nil => intro r _ _; simp [merge]
  | cons x l ihl =>
    intro r hxl hr
    induction r with
    | nil => simp [merge]
    | cons y r ihr =>
      rw [merge]
      have hxl' := List.pairwise_cons.mp hxl
      have hyr' := List.pairwise_cons.mp hr
      by_cases h : x.amount ≤ y.amount
      · simp only [h, if_true, List.filter_cons, List.cons_append]
        rw [ihl (y :: r) hxl'.2 hr]
        by_cases hx : x.amount = a <;> simp [hx, List.filter_cons]
      · simp only [h, if_false]
        rw [List.filter_cons, ihr hyr'.2]
        by_cases hy : y.amount = a
        · -- the right head ties the key: everything left must exceed it
          have hyx : y.amount < x.amount := lt_of_not_le h
          have hnone : (x :: l).filter (fun e => decide (e.amount = a)) = [] := by
            rw [List.filter_eq_nil_iff]
            intro e he
            rcases List.mem_cons.mp he with rfl | he'
            · simp; omega
            · have := hxl'.1 e he'
              simp; omega
          rw [hnone]
          simp [hy, List.filter_cons, hnone]
        · simp [hy, List.filter_cons]

/-- The two recursive calls of `merge_sort_by_amount` act on strictly
shorter lists; restated as the unfolded recursion for lists of length ≥ 2. -/
theorem mergeSortByAmount_unfold (es : List Expense) (h : ¬ es.length ≤ 1) :
    mergeSortByAmount es =
      merge (mergeSortByAmount (es.take (es.length / 2)))
        (mergeSortByAmount (es.drop (es.length / 2))) := by
  rw [mergeSortByAmount]
  simp [h]

theorem mergeSortByAmount_perm (n : Nat) :
    ∀ es : List Expense, es.length ≤ n → (mergeSortByAmount es).Perm es := by
  induction n with
  | zero =>
    intro es h
    have : es = [] := List.length_eq_zero.mp (Nat.le_zero.mp h)
    subst this
    rw [mergeSortByAmount]
    simp
  | succ n ih =>
    intro es h
    by_cases h1 : es.length ≤ 1
    · rw [mergeSortByAmount]; simp [h1]
    · rw [mergeSortByAmount_unfold es h1]
      have htake : (es.take (es.length / 2)).length ≤ n := by
        simp only [List.length_take]; omega
      have hdrop : (es.drop (es.length / 2)).length ≤ n := by
        simp only [List.length_drop]; omega
      refine (merge_perm _ _).trans ?_
      refine ((ih _ htake).append (ih _ hdrop)).trans ?_
      rw [List.take_append_drop]

theorem mergeSortByAmount_sorted (n : Nat) :
    ∀ es : List Expense, es.length ≤ n → SortedByAmount (mergeSortByAmount es) := by
  induction n with
  | zero =>
    intro es h
    have : es = [] := List.length_eq_zero.mp (Nat.le_zero.mp h)
    subst this
    rw [mergeSortByAmount]
    exact List.Pairwise.nil
  | succ n ih =>
    intro es h
    by_cases h1 : es.length ≤ 1
    · rw [mergeSortByAmount]
      simp only [h1, if_true]
      match es, h1 with
      | [], _ => exact List.Pairwise.nil
      | [e], _ => exact List.pairwise_singleton _ e
    · rw [mergeSortByAmount_unfold es h1]
      have htake : (es.take (es.length / 2)).length ≤ n := by
        simp only [List.length_take]; omega
      have hdrop : (es.drop (es.length / 2)).length ≤ n := by
        simp only [List.length_drop]; omega
      exact merge_sorted _ _ (ih _ htake) (ih _ hdrop)

theorem mergeSortByAmount_filter_amount (n : Nat) :
    ∀ es : List Expense, es.length ≤ n → ∀ a : Int,
      (mergeSortByAmount es).filter (fun e => decide (e.amount = a)) =
        es.filter (fun e => decide (e.amount = a)) := by
  induction n with
  | zero =>
    intro es h a
    have : es = [] := List.length_eq_zero.mp (Nat.le_zero.mp h)
    subst this
    rw [mergeSortByAmount]
    simp
  | succ n ih =>
    intro es h a
    by_cases h1 : es.length ≤ 1
    · rw [mergeSortByAmount]; simp [h1]
    · rw [mergeSortByAmount_unfold es h1]
      have htake : (es.take (es.length / 2)).length ≤ n := by
        simp only [List.length_take]; omega
      have hdrop : (es.drop (es.length / 2)).length ≤ n := by
        simp only [List.length_drop]; omega
      rw [merge_filter_amount a _ _
        (mergeSortByAmount_sorted n _ htake) (mergeSortByAmount_sorted n _ hdrop),
        ih _ htake, ih _ hdrop, ← List.filter_append, List.take_append_drop]

/-- Claim C3: `merge_sort_by_amount` returns a permutation of its input
(same length, every element exactly once), non-decreasing by amount, and
stable: for each amount value, the records carrying it appear in the output
in exactly their input order. -/
theorem sortByAmount_perm_sorted_stable (l : List Expense) :
    (mergeSortByAmount l).Perm l ∧
    (mergeSortByAmount l).length = l.length ∧
    SortedByAmount (mergeSortByAmount l) ∧
    ∀ a : Int,
      (mergeSortByAmount l).filter (fun e => decide (e.amount = a)) =
        l.filter (fun e => decide (e.amount = a)) := by
  have hperm := mergeSortByAmount_perm l.length l le_rfl
  exact ⟨hperm, hperm.length_eq,
    mergeSortByAmount_sorted l.length l le_rfl,
    mergeSortByAmount_filter_amount l.length l le_rfl⟩

/-- Claim C8: the amount sort is pure. As a state transformer it returns
the tracker state untouched, its result is a function of the input list
alone (the same for any two tracker states), and `view_expenses` — which
calls it on a copy of the ledger — also leaves the tracker unchanged. -/
theorem sortByAmount_pure (tr tr₂ : Tracker) (input : List Expense) (b : Bool) :
    (trackerSortByAmount tr input).2 = tr ∧
    (trackerSortByAmount tr input).1 = (trackerSortByAmount tr₂ input).1 ∧
    (trackerSortByAmount tr input).1 = mergeSortByAmount input ∧
    (viewExpenses tr b).2 = tr :=
  ⟨rfl, rfl, rfl, by cases b <;> rfl⟩

/-- Claim C10: the divide-and-conquer terminates: a list of length ≥ 2
splits into halves of lengths ⌊n/2⌋ and n−⌊n/2⌋, both strictly smaller, the
recursion equation holds of the total function `mergeSortByAmount`, and the
merge loop completes, consuming both halves entirely. -/
theorem sortByAmount_terminates (es : List Expense) (h : 2 ≤ es.length) :
    (es.take (es.length / 2)).length = es.length / 2 ∧
    (es.drop (es.length / 2)).length = es.length - es.length / 2 ∧
    (es.take (es.length / 2)).length < es.length ∧
    (es.drop (es.length / 2)).length < es.length ∧
    mergeSortByAmount es =
      merge (mergeSortByAmount (es.take (es.length / 2)))
        (mergeSortByAmount (es.drop (es.length / 2))) ∧
    (mergeSortByAmount es).length = es.length := by
  refine ⟨by simp only [List.length_take]; omega,
    by simp only [List.length_drop],
    by simp only [List.length_take]; omega,
    by simp only [List.length_drop]; omega,
    mergeSortByAmount_unfold es (by omega),
    (mergeSortByAmount_perm es.length es le_rfl).length_eq⟩

/-- Witness for C10 on a concrete two-element list. -/
theorem sortByAmount_terminates_witness :
    2 ≤ ([⟨⟨2024, 3, 5⟩, 20, "Food", "lunch"⟩,
          ⟨⟨2024, 3, 1⟩, 15, "Travel", "bus"⟩] : List Expense).length ∧
    (([⟨⟨2024, 3, 5⟩, 20, "Food", "lunch"⟩,
       ⟨⟨2024, 3, 1⟩, 15, "Travel", "bus"⟩] : List Expense).take
        (([⟨⟨2024, 3, 5⟩, 20, "Food", "lunch"⟩,
           ⟨⟨2024, 3, 1⟩, 15, "Travel", "bus"⟩] : List Expense).length / 2)).length <
      ([⟨⟨2024, 3, 5⟩, 20, "Food", "lunch"⟩,
        ⟨⟨2024, 3, 1⟩, 15, "Travel", "bus"⟩] : List Expense).length :=
  ⟨by decide,
    (sortByAmount_terminates
      [⟨⟨2024, 3, 5⟩, 20, "Food", "lunch"⟩, ⟨⟨2024, 3, 1⟩, 15, "Travel", "bus"⟩]
      (by decide)).2.2.1⟩

/-! ## The binary search (`binary_search_by_date`) -/

theorem pyIdx_nonneg (es : List Expense) (i : Int) (h : 0 ≤ i) :
    pyIdx? es i = es[i.toNat]? := by
  unfold pyIdx?
  rw [if_pos h]

theorem take_succ_reverse (es : List Expense) (k : Nat) (hk : k < es.length) :
    (es.take (k + 1)).reverse = es[k] :: (es.take k).reverse := by
  rw [List.take_succ, List.getElem?_eq_getElem hk]
  simp

/-- The left collection loop gathers (in right-to-left order) the maximal
run of target-dated elements ending at index `i`, and never goes out of
bounds. -/
theorem scanLeft_eq (es : List Expense) (t : Date) :
    ∀ (n : Nat) (i : Int) (acc : List Expense), (i + 1).toNat = n →
      i < (es.length : Int) →
      scanLeft es t i acc =
        some (acc ++ (es.take (i + 1).toNat).reverse.takeWhile
          (fun e => decide (e.date = t))) := by
  intro n
  induction n with
  | zero =>
    intro i acc hn hi
    rw [scanLeft, if_neg (by omega), hn]
    simp
  | succ n ih =>
    intro i acc hn hi
    have h0 : 0 ≤ i := by omega
    have hlt : i.toNat < es.length := by omega
    have htn : (i + 1).toNat = i.toNat + 1 := by omega
    rw [scanLeft, if_pos h0, pyIdx_nonneg es i h0, List.getElem?_eq_getElem hlt]
    dsimp only
    rw [htn, take_succ_reverse es i.toNat hlt]
    by_cases he : es[i.toNat].date = t
    · rw [if_pos he, ih (i - 1) (acc ++ [es[i.toNat]]) (by omega) (by omega)]
      have h1 : (i - 1 + 1).toNat = i.toNat := by omega
      rw [h1, List.takeWhile_cons, if_pos (by simpa using he)]
      simp
    · rw [if_neg he, List.takeWhile_cons, if_neg (by simpa using he)]
      simp

/-- The right collection loop gathers the maximal run of target-dated
elements starting at index `i`, and never goes out of bounds. -/
theorem scanRight_eq (es : List Expense) (t : Date) :
    ∀ (n : Nat) (i : Int) (acc : List Expense),
      ((es.length : Int) - i).toNat = n → 0 ≤ i →
      scanRight es t i acc =
        some (acc ++ (es.drop i.toNat).takeWhile (fun e => decide (e.date = t))) := by
  intro n
  induction n with
  | zero =>
    intro i acc hn hi
    rw [scanRight, if_neg (by omega)]
    rw [List.drop_eq_nil_of_le (by omega)]
    simp
  | succ n ih =>
    intro i acc hn hi
    have hlen : i < (es.length : Int) := by omega
    have hlt : i.toNat < es.length := by omega
    rw [scanRight, if_pos hlen, pyIdx_nonneg es i hi, List.getElem?_eq_getElem hlt]
    dsimp only
    rw [List.drop_eq_getElem_cons hlt]
    by_cases he : es[i.toNat].date = t
    · rw [if_pos he, ih (i + 1) (acc ++ [es[i.toNat]]) (by omega) (by omega)]
      have h1 : (i + 1).toNat = i.toNat + 1 := by omega
      rw [h1, List.takeWhile_cons, if_pos (by simpa using he)]
      simp
    · rw [if_neg he, List.takeWhile_cons, if_neg (by simpa using he)]
      simp

/-- In a non-increasing (by date) list all of whose dates are ≤ `t`, the
elements dated exactly `t` form a prefix. -/
theorem filter_eq_takeWhile_of_rev_sorted (t : Date) :
    ∀ l : List Expense, l.Pairwise (fun a b => Date.le b.date a.date) →
      (∀ e ∈ l, Date.le e.date t) →
      l.filter (fun e => decide (e.date = t)) =
        l.takeWhile (fun e => decide (e.date = t)) := by
  intro l
  induction l with
  | nil => intro _ _; rfl
  | cons y ys ih =>
    intro hp hall
    have hp' := List.pairwise_cons.mp hp
    by_cases hy : y.date = t
    · rw [List.filter_cons, List.takeWhile_cons, if_pos (by simpa using hy),
        if_pos (by simpa using hy),
        ih hp'.2 fun e he => hall e (List.mem_cons_of_mem y he)]
    · have hylt : Date.lt y.date t :=
        Date.lt_of_le_of_ne (hall y (List.mem_cons_self y ys)) hy
      have hnil : ys.filter (fun e => decide (e.date = t)) = [] := by
        rw [List.filter_eq_nil_iff]
        intro e he
        simp only [decide_eq_true_eq]
        intro het
        have hle : Date.le e.date y.date := hp'.1 e he
        rw [het] at hle
        exact Date.lt_irrefl t (Date.lt_of_le_of_lt hle hylt)
      rw [List.filter_cons, List.takeWhile_cons, if_neg (by simpa using hy),
        if_neg (by simpa using hy), hnil]

/-- In a non-decreasing (by date) list all of whose dates are ≥ `t`, the
elements dated exactly `t` form a prefix. -/
theorem filter_eq_takeWhile_of_sorted_ge (t : Date) :
    ∀ l : List Expense, l.Pairwise (fun a b => Date.le a.date b.date) →
      (∀ e ∈ l, Date.le t e.date) →
      l.filter (fun e => decide (e.date = t)) =
        l.takeWhile (fun e => decide (e.date = t)) := by
  intro l
  induction l with
  | nil => intro _ _; rfl
  | cons y ys ih =>
    intro hp hall
    have hp' := List.pairwise_cons.mp hp
    by_cases hy : y.date = t
    · rw [List.filter_cons, List.takeWhile_cons, if_pos (by simpa using hy),
        if_pos (by simpa using hy),
        ih hp'.2 fun e he => hall e (List.mem_cons_of_mem y he)]
    · have hylt : Date.lt t y.date :=
        Date.lt_of_le_of_ne (hall y (List.mem_cons_self y ys))
          fun h => hy h.symm
      have hnil : ys.filter (fun e => decide (e.date = t)) = [] := by
        rw [List.filter_eq_nil_iff]
        intro e he
        simp only [decide_eq_true_eq]
        intro het
        have hle : Date.le y.date e.date := hp'.1 e he
        rw [het] at hle
        exact Date.lt_irrefl t (Date.lt_of_lt_of_le hylt hle)
      rw [List.filter_cons, List.takeWhile_cons, if_neg (by simpa using hy),
        if_neg (by simpa using hy), hnil]

theorem sorted_getElem_le (es : List Expense) (hs : SortedByDate es)
    (i j : Nat) (hi : i < es.length) (hj : j < es.length) (hij : i ≤ j) :
    Date.le es[i].date es[j].date := by
  rcases Nat.lt_or_eq_of_le hij with h | h
  · have := List.pairwise_iff_get.mp hs ⟨i, hi⟩ ⟨j, hj⟩ (by simpa using h)
    simpa [List.get_eq_getElem] using this
  · subst h
    exact Date.le_refl _

/-- The exact-hit branch: the hit plus its left and right scans collect, up
to order, exactly the records dated `t` (on a sorted ledger all of them sit
in one contiguous run around the hit). -/
theorem bsearch_found_perm (es : List Expense) (t : Date) (m : Nat)
    (hm : m < es.length) (hs : SortedByDate es) (ht : es[m].date = t) :
    ∃ acc r, scanLeft es t ((m : Int) - 1) [es[m]] = some acc ∧
      scanRight es t ((m : Int) + 1) acc = some r ∧
      r.Perm (es.filter (fun e => decide (e.date = t))) := by
  have h1 := scanLeft_eq es t ((m : Int) - 1 + 1).toNat ((m : Int) - 1)
    [es[m]] rfl (by omega)
  have hmm : ((m : Int) - 1 + 1).toNat = m := by omega
  rw [hmm] at h1
  set L := (es.take m).reverse.takeWhile (fun e => decide (e.date = t)) with hL
  have h2 := scanRight_eq es t ((es.length : Int) - ((m : Int) + 1)).toNat
    ((m : Int) + 1) ([es[m]] ++ L) rfl (by omega)
  have hm1 : ((m : Int) + 1).toNat = m + 1 := by omega
  rw [hm1] at h2
  set R := (es.drop (m + 1)).takeWhile (fun e => decide (e.date = t)) with hR
  refine ⟨[es[m]] ++ L, ([es[m]] ++ L) ++ R, h1, h2, ?_⟩
  -- decompose the sorted ledger around the hit
  have hsplit : es = es.take m ++ es[m] :: es.drop (m + 1) := by
    conv_lhs => rw [← List.take_append_drop m es]
    rw [List.drop_eq_getElem_cons hm]
  have hpairsplit :
      (es.take m ++ es[m] :: es.drop (m + 1)).Pairwise
        (fun a b => Date.le a.date b.date) := by
    rw [← hsplit]; exact hs
  rw [List.pairwise_append] at hpairsplit
  obtain ⟨hpre, hmidsuf, hcross⟩ := hpairsplit
  have hmidsuf' := List.pairwise_cons.mp hmidsuf
  have hprele : ∀ e ∈ es.take m, Date.le e.date t := fun e he =>
    ht ▸ hcross e he es[m] (List.mem_cons_self _ _)
  have hsufge : ∀ e ∈ es.drop (m + 1), Date.le t e.date := fun e he =>
    ht ▸ hmidsuf'.1 e he
  -- the prefix's matches are the reverse of the left run
  have hrevpair : (es.take m).reverse.Pairwise
      (fun a b => Date.le b.date a.date) := by
    rw [List.pairwise_reverse]
    exact hpre
  have e1 : (es.take m).reverse.filter (fun e => decide (e.date = t)) = L :=
    filter_eq_takeWhile_of_rev_sorted t _ hrevpair
      fun e he => hprele e (List.mem_reverse.mp he)
  have hfpre : (es.take m).filter (fun e => decide (e.date = t)) = L.reverse := by
    rw [List.filter_reverse] at e1
    exact List.reverse_eq_iff.mp e1
  have hfsuf : (es.drop (m + 1)).filter (fun e => decide (e.date = t)) = R :=
    filter_eq_takeWhile_of_sorted_ge t _ hmidsuf'.2 hsufge
  have hfilter : es.filter (fun e => decide (e.date = t)) =
      L.reverse ++ es[m] :: R := by
    conv_lhs => rw [hsplit]
    rw [List.filter_append, List.filter_cons, if_pos (by simpa using ht),
      hfpre, hfsuf]
  rw [hfilter]
  have hshape : ([es[m]] ++ L) ++ R = es[m] :: (L ++ R) := by simp
  rw [hshape]
  refine List.Perm.trans List.perm_middle.symm ?_
  exact List.Perm.append_right _ (List.reverse_perm L).symm

/-- The search loop never returns an index error: every `mid` it probes
lies inside `[left, right] ⊆ [0, length)`, and the two scans are guarded.
(No sortedness assumption.) -/
theorem bsearchLoop_some (es : List Expense) (t : Date) :
    ∀ (n : Nat) (left right : Int), (right + 1 - left).toNat ≤ n →
      0 ≤ left → right < (es.length : Int) →
      ∃ r, bsearchLoop es t left right = some r := by
  intro n
  induction n with
  | zero =>
    intro left right hn h0 hr
    rw [bsearchLoop, if_neg (by omega)]
    exact ⟨[], rfl⟩
  | succ n ih =>
    intro left right hn h0 hr
    by_cases hlr : left ≤ right
    · rw [bsearchLoop, if_pos hlr]
      set m := (left + right) / 2 with hm
      have hm1 : left ≤ m := by omega
      have hm2 : m ≤ right := by omega
      have h0m : 0 ≤ m := by omega
      have hmlt : m.toNat < es.length := by omega
      rw [pyIdx_nonneg es m h0m, List.getElem?_eq_getElem hmlt]
      dsimp only
      by_cases he : es[m.toNat].date = t
      · rw [if_pos he]
        have h1 := scanLeft_eq es t (m - 1 + 1).toNat (m - 1)
          [es[m.toNat]] rfl (by omega)
        rw [h1]
        dsimp only
        exact ⟨_, scanRight_eq es t _ (m + 1) _ rfl (by omega)⟩
      · rw [if_neg he]
        by_cases hlt2 : Date.lt es[m.toNat].date t
        · rw [if_pos hlt2]
          exact ih (m + 1) right (by omega) (by omega) hr
        · rw [if_neg hlt2]
          exact ih left (m - 1) (by omega) h0 (by omega)
    · rw [bsearchLoop, if_neg hlr]
      exact ⟨[], rfl⟩

/-- Main loop invariant on a sorted ledger: if every record dated `t` lies
at an index in `[left, right]`, the loop returns (up to order) exactly the
records dated `t`. -/
theorem bsearchLoop_perm_filter (es : List Expense) (t : Date)
    (hs : SortedByDate es) :
    ∀ (n : Nat) (left right : Int), (right + 1 - left).toNat ≤ n →
      0 ≤ left → right < (es.length : Int) →
      (∀ (k : Nat) (hk : k < es.length), es[k].date = t →
        left ≤ (k : Int) ∧ (k : Int) ≤ right) →
      ∃ r, bsearchLoop es t left right = some r ∧
        r.Perm (es.filter (fun e => decide (e.date = t))) := by
  intro n
  induction n with
  | zero =>
    intro left right hn h0 hr hinv
    have hlr : ¬ left ≤ right := by omega
    rw [bsearchLoop, if_neg hlr]
    refine ⟨[], rfl, ?_⟩
    have hnil : es.filter (fun e => decide (e.date = t)) = [] := by
      rw [List.filter_eq_nil_iff]
      intro e he
      simp only [decide_eq_true_eq]
      intro het
      obtain ⟨k, hk, rfl⟩ := List.mem_iff_getElem.mp he
      have := hinv k hk het
      omega
    rw [hnil]
  | succ n ih =>
    intro left right hn h0 hr hinv
    by_cases hlr : left ≤ right
    · rw [bsearchLoop, if_pos hlr]
      set m := (left + right) / 2 with hm
      have hm1 : left ≤ m := by omega
      have hm2 : m ≤ right := by omega
      have h0m : 0 ≤ m := by omega
      have hmlt : m.toNat < es.length := by omega
      rw [pyIdx_nonneg es m h0m, List.getElem?_eq_getElem hmlt]
      dsimp only
      by_cases he : es[m.toNat].date = t
      · rw [if_pos he]
        obtain ⟨acc, r, hacc, hrr, hperm⟩ :=
          bsearch_found_perm es t m.toNat hmlt hs he
        have hcast : ((m.toNat : Int)) = m := by omega
        rw [hcast] at hacc hrr
        rw [hacc]
        dsimp only
        rw [hrr]
        exact ⟨r, rfl, hperm⟩
      · rw [if_neg he]
        by_cases hlt2 : Date.lt es[m.toNat].date t
        · rw [if_pos hlt2]
          refine ih (m + 1) right (by omega) (by omega) hr ?_
          intro k hk hkt
          refine ⟨?_, (hinv k hk hkt).2⟩
          by_contra hcon
          have hkm : k ≤ m.toNat := by omega
          have hle := sorted_getElem_le es hs k m.toNat hk hmlt hkm
          rw [hkt] at hle
          exact Date.lt_irrefl t (Date.lt_of_lt_of_le
            (Date.lt_of_le_of_lt hle hlt2) (Date.le_refl t))
        · rw [if_neg hlt2]
          have hgt : Date.lt t es[m.toNat].date :=
            Date.lt_of_le_of_ne (Date.not_lt.mp hlt2) fun hh => he hh.symm
          refine ih left (m - 1) (by omega) h0 (by omega) ?_
          intro k hk hkt
          refine ⟨(hinv k hk hkt).1, ?_⟩
          by_contra hcon
          have hkm : m.toNat ≤ k := by omega
          have hle := sorted_getElem_le es hs m.toNat k hmlt hk hkm
          rw [hkt] at hle
          exact Date.lt_irrefl t (Date.lt_of_lt_of_le hgt hle)
    · rw [bsearchLoop, if_neg hlr]
      refine ⟨[], rfl, ?_⟩
      have hnil : es.filter (fun e => decide (e.date = t)) = [] := by
        rw [List.filter_eq_nil_iff]
        intro e he
        simp only [decide_eq_true_eq]
        intro het
        obtain ⟨k, hk, rfl⟩ := List.mem_iff_getElem.mp he
        have := hinv k hk het
        omega
      rw [hnil]

/-- Claim C2: on a date-sorted ledger, `binary_search_by_date` with a valid
date string returns (without failing) exactly the records whose date equals
the target — a permutation of the filter of the sequence — and hence an
empty list when none match. -/
theorem findByDate_returns_matches (es : List Expense) (s : String) (t : Date)
    (hparse : parseDate s = some t) (hs : SortedByDate es) :
    ∃ r, binarySearchByDate es s = Except.ok r ∧
      r.Perm (es.filter (fun e => decide (e.date = t))) := by
  obtain ⟨r, hr, hperm⟩ := bsearchLoop_perm_filter es t hs es.length 0
    ((es.length : Int) - 1) (by omega) (by omega) (by omega)
    (fun k hk _ => by omega)
  refine ⟨r, ?_, hperm⟩
  unfold binarySearchByDate
  rw [hparse]
  dsimp only
  rw [hr]

/-- Witness for C2 on the spec's example ledger and the duplicated date
2024-03-05. -/
theorem findByDate_returns_matches_witness :
    ∃ r, binarySearchByDate
        [⟨⟨2024, 3, 1⟩, 15, "Travel", "bus"⟩, ⟨⟨2024, 3, 5⟩, 20, "Food", "lunch"⟩,
         ⟨⟨2024, 3, 5⟩, 5, "Food", "coffee"⟩] "2024-03-05" = Except.ok r ∧
      r.Perm
        ([⟨⟨2024, 3, 1⟩, 15, "Travel", "bus"⟩, ⟨⟨2024, 3, 5⟩, 20, "Food", "lunch"⟩,
          ⟨⟨2024, 3, 5⟩, 5, "Food", "coffee"⟩].filter
          (fun e => decide (e.date = ⟨2024, 3, 5⟩))) :=
  findByDate_returns_matches
    [⟨⟨2024, 3, 1⟩, 15, "Travel", "bus"⟩, ⟨⟨2024, 3, 5⟩, 20, "Food", "lunch"⟩,
     ⟨⟨2024, 3, 5⟩, 5, "Food", "coffee"⟩] "2024-03-05" ⟨2024, 3, 5⟩
    (by decide) (by decide)

/-- Claim C9: with a valid target date, `binary_search_by_date` never index
errors on any ledger state (sorted or not): every probed index is in
bounds, so it returns a result; on the empty ledger that result is the
empty list. -/
theorem findByDate_index_safe (es : List Expense) (s : String) (t : Date)
    (hparse : parseDate s = some t) :
    (∃ r, binarySearchByDate es s = Except.ok r) ∧
    (es = [] → binarySearchByDate es s = Except.ok []) := by
  constructor
  · obtain ⟨r, hr⟩ := bsearchLoop_some es t es.length 0 ((es.length : Int) - 1)
      (by omega) (by omega) (by omega)
    refine ⟨r, ?_⟩
    unfold binarySearchByDate
    rw [hparse]
    dsimp only
    rw [hr]
  · intro he
    subst he
    unfold binarySearchByDate
    rw [hparse]
    dsimp only
    rw [bsearchLoop]
    simp

/-- Witness for C9 on the empty ledger. -/
theorem findByDate_index_safe_witness :
    (∃ r, binarySearchByDate [] "2024-03-05" = Except.ok r) ∧
    (([] : List Expense) = [] → binarySearchByDate [] "2024-03-05" = Except.ok []) :=
  findByDate_index_safe [] "2024-03-05" ⟨2024, 3, 5⟩ (by decide)

/-- Claim C6: `add_expense` and `binary_search_by_date` report the
invalid-date failure exactly when the date string fails to parse (does not
match the `YYYY-MM-DD` pattern or names a nonexistent calendar date), and
with a parsable date string neither fails in any other way — in particular
the search never raises an index error. -/
theorem invalid_date_error_iff (es : List Expense) (s : String) (a : Int)
    (c ds : String) :
    ((addExpense es s a c ds).2 = InsertResult.invalidDate ↔ parseDate s = none) ∧
    (binarySearchByDate es s = Except.error SearchError.invalidDate ↔
      parseDate s = none) ∧
    binarySearchByDate es s ≠ Except.error SearchError.indexError := by
  refine ⟨?_, ?_, ?_⟩
  · unfold addExpense
    cases h : parseDate s <;> simp [h]
  · unfold binarySearchByDate
    cases h : parseDate s with
    | none => simp
    | some t =>
      obtain ⟨r, hr⟩ := bsearchLoop_some es t es.length 0 ((es.length : Int) - 1)
        (by omega) (by omega) (by omega)
      dsimp only
      rw [hr]
      simp
  · unfold binarySearchByDate
    cases h : parseDate s with
    | none => simp
    | some t =>
      obtain ⟨r, hr⟩ := bsearchLoop_some es t es.length 0 ((es.length : Int) - 1)
        (by omega) (by omega) (by omega)
      dsimp only
      rw [hr]
      simp

/-- Witness for C6 at a concrete ledger, a pattern-valid but nonexistent
date (month 13). -/
theorem invalid_date_error_iff_witness :
    ((addExpense [⟨⟨2024, 3, 1⟩, 15, "Travel", "bus"⟩] "2024-13-01" 9 "x" "y").2 =
        InsertResult.invalidDate ↔ parseDate "2024-13-01" = none) ∧
    (binarySearchByDate [⟨⟨2024, 3, 1⟩, 15, "Travel", "bus"⟩] "2024-13-01" =
        Except.error SearchError.invalidDate ↔ parseDate "2024-13-01" = none) ∧
    binarySearchByDate [⟨⟨2024, 3, 1⟩, 15, "Travel", "bus"⟩] "2024-13-01" ≠
      Except.error SearchError.indexError :=
  invalid_date_error_iff [⟨⟨2024, 3, 1⟩, 15, "Travel", "bus"⟩] "2024-13-01" 9 "x" "y"

/-! ## The category aggregation (`analyze_expenses`) -/

theorem dictSet_cons_pos (km : String) (vm : Int) (rest : List (String × Int))
    (k : String) (v : Int) (hk : km = k) :
    dictSet ((km, vm) :: rest) k v = (k, v) :: rest := by
  simp [dictSet, hk]

theorem dictSet_cons_neg (km : String) (vm : Int) (rest : List (String × Int))
    (k : String) (v : Int) (hk : ¬ km = k) :
    dictSet ((km, vm) :: rest) k v = (km, vm) :: dictSet rest k v := by
  simp [dictSet, hk]

theorem dictGet_dictSet (m : List (String × Int)) (k : String) (v : Int)
    (c : String) :
    dictGet (dictSet m k v) c = if c = k then some v else dictGet m c := by
  induction m with
  | nil =>
    show dictGet [(k, v)] c = if c = k then some v else dictGet [] c
    by_cases h : c = k
    · subst h; simp [dictGet]
    · simp [dictGet, h, Ne.symm h]
  | cons kv rest ih =>
    obtain ⟨km, vm⟩ := kv
    by_cases hk : km = k
    · rw [dictSet_cons_pos km vm rest k v hk]
      by_cases hc : c = k
      · subst hc; simp [dictGet]
      · have hkmc : ¬ km = c := by rw [hk]; exact Ne.symm hc
        simp [dictGet, hc, Ne.symm hc, hkmc]
    · rw [dictSet_cons_neg km vm rest k v hk]
      by_cases hc : km = c
      · have hck : ¬ c = k := by rw [← hc]; exact fun hh => hk hh
        simp [dictGet, hc, hck]
      · simp [dictGet, hc, ih]

theorem dictSet_keys_mem (m : List (String × Int)) (k : String) (v : Int) :
    ∀ c ∈ (dictSet m k v).map Prod.fst, c ∈ m.map Prod.fst ∨ c = k := by
  induction m with
  | nil => intro c hc; simp [dictSet] at hc; exact Or.inr hc
  | cons kv rest ih =>
    obtain ⟨km, vm⟩ := kv
    intro c hc
    by_cases hk : km = k
    · rw [dictSet_cons_pos km vm rest k v hk] at hc
      simp only [List.map_cons, List.mem_cons] at hc ⊢
      rcases hc with hc | hc
      · exact Or.inr hc
      · exact Or.inl (Or.inr hc)
    · rw [dictSet_cons_neg km vm rest k v hk] at hc
      simp only [List.map_cons, List.mem_cons] at hc ⊢
      rcases hc with hc | hc
      · exact Or.inl (Or.inl hc)
      · rcases ih c hc with h | h
        · exact Or.inl (Or.inr h)
        · exact Or.inr h

theorem dictSet_keys_nodup (m : List (String × Int)) (k : String) (v : Int)
    (h : (m.map Prod.fst).Nodup) : ((dictSet m k v).map Prod.fst).Nodup := by
  induction m with
  | nil => simp [dictSet]
  | cons kv rest ih =>
    obtain ⟨km, vm⟩ := kv
    simp only [List.map_cons, List.nodup_cons] at h
    by_cases hk : km = k
    · rw [dictSet_cons_pos km vm rest k v hk]
      simp only [List.map_cons, List.nodup_cons]
      constructor
      · rw [← hk]; exact h.1
      · exact h.2
    · rw [dictSet_cons_neg km vm rest k v hk]
      simp only [List.map_cons, List.nodup_cons]
      refine ⟨?_, ih h.2⟩
      intro hmem
      rcases dictSet_keys_mem rest k v km hmem with hm | hm
      · exact h.1 hm
      · exact hk hm

/-- Running the aggregation loop from an arbitrary dictionary state: the
entry for `c` accumulates the sum of the amounts of the `c`-category
records. -/
theorem categoryTotals_go (c : String) (es : List Expense) :
    ∀ m : List (String × Int),
      dictGet
        (es.foldl
          (fun m e => dictSet m e.category ((dictGet m e.category).getD 0 + e.amount))
          m) c =
      if (dictGet m c).isSome ∨ ∃ e ∈ es, e.category = c
      then some ((dictGet m c).getD 0 +
        ((es.filter (fun e => decide (e.category = c))).map Expense.amount).sum)
      else none := by
  induction es with
  | nil =>
    intro m
    cases h : dictGet m c <;> simp [h]
  | cons e es ih =>
    intro m
    rw [List.foldl_cons, ih]
    by_cases hc : e.category = c
    · have hc' : c = e.category := hc.symm
      rw [dictGet_dictSet, if_pos hc']
      rw [if_pos (Or.inl (by simp :
        (some ((dictGet m e.category).getD 0 + e.amount)).isSome = true))]
      rw [Option.getD_some]
      rw [if_pos (Or.inr ⟨e, List.mem_cons_self e es, hc⟩)]
      rw [List.filter_cons,
        if_pos (by simpa using hc : decide (e.category = c) = true),
        List.map_cons, List.sum_cons]
      rw [hc]
      congr 1
      omega
    · rw [dictGet_dictSet,
        if_neg (show ¬ c = e.category from fun hh => hc hh.symm)]
      rw [List.filter_cons,
        if_neg (by simpa using hc : ¬ decide (e.category = c) = true)]
      refine if_congr ?_ rfl rfl
      constructor
      · rintro (h | ⟨x, hx, hxc⟩)
        · exact Or.inl h
        · exact Or.inr ⟨x, List.mem_cons_of_mem e hx, hxc⟩
      · rintro (h | ⟨x, hx, hxc⟩)
        · exact Or.inl h
        · rcases List.mem_cons.mp hx with rfl | hx'
          · exact absurd hxc hc
          · exact Or.inr ⟨x, hx', hxc⟩

theorem categoryTotals_keys_nodup_go (es : List Expense) :
    ∀ m : List (String × Int), (m.map Prod.fst).Nodup →
      ((es.foldl
          (fun m e => dictSet m e.category ((dictGet m e.category).getD 0 + e.amount))
          m).map Prod.fst).Nodup := by
  induction es with
  | nil => intro m hm; exact hm
  | cons e es ih =>
    intro m hm
    rw [List.foldl_cons]
    exact ih _ (dictSet_keys_nodup m e.category _ hm)

/-- Claim C7: the aggregation groups records by exact category text and
sums their amounts — the entry for each category present is the sum of its
records' amounts, absent categories have no entry (so there is exactly one
entry per distinct category, and the keys are duplicate-free) — and on the
spec's example it yields {A: 13, B: 5}, on the empty input the empty
mapping. -/
theorem categoryTotals_groups_and_sums (es : List Expense) :
    (∀ c : String,
      dictGet (categoryTotals es) c =
        if ∃ e ∈ es, e.category = c
        then some (((es.filter (fun e => decide (e.category = c))).map
          Expense.amount).sum)
        else none) ∧
    ((categoryTotals es).map Prod.fst).Nodup ∧
    categoryTotals
        [⟨⟨2024, 1, 1⟩, 10, "A", "a1"⟩, ⟨⟨2024, 1, 2⟩, 5, "B", "b1"⟩,
         ⟨⟨2024, 1, 3⟩, 3, "A", "a2"⟩] = [("A", 13), ("B", 5)] ∧
    categoryTotals [] = [] := by
  refine ⟨?_, categoryTotals_keys_nodup_go es [] (by simp), by decide, rfl⟩
  intro c
  unfold categoryTotals
  rw [categoryTotals_go c es []]
  simp [dictGet]

end ExpenseTracker
